import Mathlib

/-!
Verification of the thin-walled composite section analyzer against its
specification.  The repository's source (`composite_cases.py`) is a sequence of
six hardcoded worked examples; each case's arithmetic is embedded here exactly,
over `ℚ`.  The generalized engine described by the specification
(`compute_stiffness`, `compute_shear_flow`, `compute_torsion`,
`compute_warping`) is not present in the source, so those operations are
modelled from the spec's own formulas and the claims are settled against the
model; concrete worked-example sections tie the model back to the source's
numbers.
-/

namespace Case3

/-- Source Case 3 (shearing of closed trapezoid): shear force input in kN is
converted to N (`Tz = st.sidebar.number_input(...) * 1000`). -/
def Tz (TzkN : ℚ) : ℚ := TzkN * 1000

/-- Source line 163: `EI_yy = 405e3`, a hardcoded slide result; the shear-force
input does not appear in the expression. -/
def EI_yy (_Tz : ℚ) : ℚ := 405e3

/-- Source line 170: `q_open_B = 8.3e3`, hardcoded. -/
def q_open_B (_Tz : ℚ) : ℚ := 8.3e3

/-- Source line 185: `q_correction = 9.4e3`, hardcoded. -/
def q_correction (_Tz : ℚ) : ℚ := 9.4e3

/-- Source line 189: `q_final_AC_mid = 1.1e3`, hardcoded. -/
def q_final_AC_mid (_Tz : ℚ) : ℚ := 1.1e3

end Case3

namespace Case4

/-- Source Case 4 (torsion of rectangular box): torque input in kNm converted
to Nm. -/
def Mx (MxkNm : ℚ) : ℚ := MxkNm * 1000

/-- Source line 201: box height `h = 0.1` m. -/
def h : ℚ := 0.1

/-- Source line 201: box width `b = 0.2` m. -/
def b : ℚ := 0.2

/-- Source line 204: enclosed area `Ah = h * b`. -/
def Ah : ℚ := h * b

/-- Source line 205: shear flow `q = Mx / (2 * Ah)`. -/
def q (mx : ℚ) : ℚ := mx / (2 * Ah)

/-- Source line 211: loop integral `∮ ds/(μ t)` as the piecewise sum
`2*(b/(20e9*0.002)) + 2*(h/(35e9*0.001))` (covers 20 GPa / 2 mm, webs
35 GPa / 1 mm). -/
def int_ds_mut : ℚ := 2 * (b / (20e9 * 0.002)) + 2 * (h / (35e9 * 0.001))

/-- Source line 214: torsional stiffness `J_torsion = 4 Ah² / ∮ ds/(μ t)`. -/
def J_torsion : ℚ := (4 * Ah ^ 2) / int_ds_mut

/-- Source line 220: warping displacement at corner A, hardcoded slide result
`-0.133` mm; the torque input does not appear in the expression. -/
def u_warping (_mx : ℚ) : ℚ := -0.133

end Case4

namespace Case5

/-- Source line 232: flange width `b = 0.025` m. -/
def b : ℚ := 0.025

/-- Source line 232: web height `h = 0.05` m. -/
def h : ℚ := 0.05

/-- Source line 233: flange thickness `tf = 0.0015` m. -/
def tf : ℚ := 0.0015

/-- Source line 233: web thickness `tw = 0.0025` m. -/
def tw : ℚ := 0.0025

/-- Source line 234: flange shear modulus `Gf = 20e9` Pa. -/
def Gf : ℚ := 20e9

/-- Source line 234: web shear modulus `Gw = 15e9` Pa. -/
def Gw : ℚ := 15e9

/-- Source line 239: open-section strip rigidity
`J_torsion = (2/3 Gf b tf³) + (1/3 Gw h tw³)` (two flanges, one web). -/
def J_torsion : ℚ := (2/3 * Gf * b * tf ^ 3) + (1/3 * Gw * h * tw ^ 3)

/-- Source line 243: twist rate `θ' = Mx / J_torsion`. -/
def theta_prime (mx : ℚ) : ℚ := mx / J_torsion

/-- Source line 247: web max shear stress in MPa, `Gw * tw * θ' / 1e6`. -/
def tau_web (mx : ℚ) : ℚ := Gw * tw * theta_prime mx / 1e6

/-- Source line 248: flange max shear stress in MPa, `Gf * tf * θ' / 1e6`. -/
def tau_flange (mx : ℚ) : ℚ := Gf * tf * theta_prime mx / 1e6

end Case5

namespace Case6

/-- Source line 263: web height `h = 0.1` m. -/
def h : ℚ := 0.1

/-- Source line 263: flange width `b = 0.05` m. -/
def b : ℚ := 0.05

/-- Source line 264: flange thickness `tf = 0.001` m. -/
def tf : ℚ := 0.001

/-- Source line 264: web thickness `tw = 0.005` m. -/
def tw : ℚ := 0.005

/-- Source line 265: flange shear modulus `Gf = 16.3e9` Pa. -/
def Gf : ℚ := 16.3e9

/-- Source line 265: web shear modulus `Gw = 20.9e9` Pa. -/
def Gw : ℚ := 20.9e9

/-- Source line 270: flange strip term `(2/3) Gf b tf³`. -/
def term_f : ℚ := (2/3) * Gf * b * tf ^ 3

/-- Source line 271: web strip term `(1/3) Gw h tw³`. -/
def term_w : ℚ := (1/3) * Gw * h * tw ^ 3

/-- Source line 272: torsional rigidity `J_torsion = term_f + term_w`. -/
def J_torsion : ℚ := term_f + term_w

/-- Source line 279: twist rate `θ' = Mx / J_torsion`. -/
def theta_prime (mx : ℚ) : ℚ := mx / J_torsion

/-- Source line 283: web max shear stress in MPa. -/
def tau_w (mx : ℚ) : ℚ := Gw * tw * theta_prime mx / 1e6

/-- Source line 284: flange max shear stress in MPa. -/
def tau_f (mx : ℚ) : ℚ := Gf * tf * theta_prime mx / 1e6

/-- Source line 291: swept sectorial area `A_swept = 0.5 * b * (h/2)`. -/
def A_swept : ℚ := 0.5 * b * (h / 2)

/-- Source line 294: warping displacement `u = -2 A_swept θ' * 1000` (mm). -/
def u_warping (mx : ℚ) : ℚ := -2 * A_swept * theta_prime mx * 1000

end Case6

namespace Engine

/-- Modelled from the spec: error kinds of §7 (the source has no error
handling; only the spec declares these). -/
inductive SectionError where
  | malformedTopology
  | degenerateSection
  | degenerateGeometry
  | zeroRigidity
deriving DecidableEq

/-- Modelled from the spec §3: a straight wall piece with 2D endpoints in the
section's (y, z) plane, thickness, elastic modulus and shear modulus.  The
spec derives `length` from the endpoints; exact arc length is irrational for
general rational endpoints, so the model stores `length` explicitly and the
geometric witnesses below use axis-aligned segments where the stored value is
the exact Euclidean length. -/
structure Segment where
  startY : ℚ
  startZ : ℚ
  endY : ℚ
  endZ : ℚ
  length : ℚ
  thickness : ℚ
  modulus : ℚ
  shearModulus : ℚ
deriving DecidableEq

/-- Default segment for positional lookups past the end of a list. -/
def defaultSeg : Segment := ⟨0, 0, 0, 0, 0, 0, 0, 0⟩

/-- Modulus-weighted wall weight `E·t·L` of a segment. -/
def Segment.axialWeight (s : Segment) : ℚ := s.modulus * s.thickness * s.length

/-- Data-model well-formedness (spec §3): positive thickness, moduli and
length on every segment. -/
def validSegs (segs : List Segment) : Bool :=
  segs.all fun s =>
    decide (0 < s.length) && decide (0 < s.thickness) &&
    decide (0 < s.modulus) && decide (0 < s.shearModulus)

/-- Modelled from the spec §3: the chaining invariant — `end` of segment i
equals `start` of segment i+1. -/
def Chained (segs : List Segment) : Prop :=
  List.Chain' (fun s t => s.endY = t.startY ∧ s.endZ = t.startZ) segs

/-- Modelled from the spec §3: topology test — the section is closed when the
last segment's end coincides with the first segment's start (exact rational
coincidence stands in for the spec's tolerance). -/
def isClosed (segs : List Segment) : Bool :=
  match segs.head?, segs.getLast? with
  | some f, some l => decide (l.endY = f.startY) && decide (l.endZ = f.startZ)
  | _, _ => false

/-- A properly chained closed loop. -/
def ClosedLoop (segs : List Segment) : Prop :=
  Chained segs ∧ isClosed segs = true

/-- Shoelace contribution of one segment. -/
def segCross (s : Segment) : ℚ := s.startY * s.endZ - s.startZ * s.endY

/-- Modelled from the spec §3: signed enclosed area of the loop (shoelace
formula over the segment endpoints). -/
def enclosedArea (segs : List Segment) : ℚ := (segs.map segCross).sum / 2

/-! ### Torsion solver (modelled from the spec §4.3) -/

/-- Loop compliance `∮ ds/(μ t)`, accumulated piecewise as
`length_i / (shear_modulus_i · thickness_i)`. -/
def loopCompliance : List Segment → ℚ
  | [] => 0
  | s :: rest => s.length / (s.shearModulus * s.thickness) + loopCompliance rest

/-- Open-section strip rigidity, accumulated piecewise as
`(1/3) · shear_modulus_i · length_i · thickness_i³`. -/
def openRigidity : List Segment → ℚ
  | [] => 0
  | s :: rest => 1/3 * s.shearModulus * s.length * s.thickness ^ 3 + openRigidity rest

/-- Torsion result: rigidity and twist rate (spec §3). -/
structure TorsionResult where
  rigidity : ℚ
  twistRate : ℚ
deriving DecidableEq

/-- Modelled from the spec §4.3: `compute_torsion`, polymorphic over topology —
Bredt–Batho loop formula for closed single cells, strip summation for open
sections; twist rate `θ' = torque / GJ`. -/
def compute_torsion (segs : List Segment) (torque : ℚ) : TorsionResult :=
  let GJ :=
    if isClosed segs then 4 * enclosedArea segs ^ 2 / loopCompliance segs
    else openRigidity segs
  ⟨GJ, torque / GJ⟩

theorem loopCompliance_eq_sum (segs : List Segment) :
    loopCompliance segs =
      (segs.map fun s => s.length / (s.shearModulus * s.thickness)).sum := by
  induction segs with
  | nil => rfl
  | cons s rest ih => simp [loopCompliance, ih]

theorem openRigidity_eq_sum (segs : List Segment) :
    openRigidity segs =
      (segs.map fun s => 1/3 * s.shearModulus * s.length * s.thickness ^ 3).sum := by
  induction segs with
  | nil => rfl
  | cons s rest ih => simp [openRigidity, ih]

/-- Closed rectangular box section of source Case 4: width 0.2 m, height
0.1 m, covers 20 GPa / 2 mm, webs 35 GPa / 1 mm (elastic modulus plays no
role in torsion and is set to 1). -/
def boxSegs : List Segment :=
  [⟨0, 0, 2/10, 0, 2/10, 2/1000, 1, 20e9⟩,
   ⟨2/10, 0, 2/10, 1/10, 1/10, 1/1000, 1, 35e9⟩,
   ⟨2/10, 1/10, 0, 1/10, 2/10, 2/1000, 1, 20e9⟩,
   ⟨0, 1/10, 0, 0, 1/10, 1/1000, 1, 35e9⟩]

/-- Open C-section of source Case 5: two flanges 0.025 m (20 GPa, 1.5 mm) and
a web 0.05 m (15 GPa, 2.5 mm). -/
def cSectionSegs : List Segment :=
  [⟨1/40, 1/20, 0, 1/20, 1/40, 15/10000, 1, 20e9⟩,
   ⟨0, 1/20, 0, 0, 1/20, 25/10000, 1, 15e9⟩,
   ⟨0, 0, 1/40, 0, 1/40, 15/10000, 1, 20e9⟩]

end Engine

namespace Engine

/-- C1: For every CLOSED_SINGLE_CELL section, `compute_torsion` returns
torsional rigidity `GJ = 4·enclosed_area² / (∮ ds/(μ·t))`, with the loop
integral computed as the piecewise sum over the section's segments of
`length_i / (shear_modulus_i · thickness_i)`. -/
theorem compute_torsion_closed_single_cell (segs : List Segment) (torque : ℚ)
    (hc : isClosed segs = true) :
    (compute_torsion segs torque).rigidity =
      4 * enclosedArea segs ^ 2 /
        (segs.map fun s => s.length / (s.shearModulus * s.thickness)).sum := by
  simp [compute_torsion, hc, loopCompliance_eq_sum]

/-- Witness for C1: the Case-4 rectangular box is a closed single cell and the
theorem evaluates there to the worked example's loop-integral rigidity. -/
theorem compute_torsion_closed_single_cell_witness :
    isClosed boxSegs = true ∧
      (compute_torsion boxSegs 10000).rigidity =
        4 * enclosedArea boxSegs ^ 2 /
          (boxSegs.map fun s => s.length / (s.shearModulus * s.thickness)).sum :=
  ⟨by simp [isClosed, boxSegs],
   compute_torsion_closed_single_cell boxSegs 10000 (by simp [isClosed, boxSegs])⟩

/-- C2: For every OPEN section, `compute_torsion` returns torsional rigidity
`GJ = Σ_i (1/3)·shear_modulus_i·length_i·thickness_i³` over all segments, each
segment contributing with its own shear modulus and thickness. -/
theorem compute_torsion_open_strips (segs : List Segment) (torque : ℚ)
    (ho : isClosed segs = false) :
    (compute_torsion segs torque).rigidity =
      (segs.map fun s => 1/3 * s.shearModulus * s.length * s.thickness ^ 3).sum := by
  simp [compute_torsion, ho, openRigidity_eq_sum]

/-- Witness for C2: the Case-5 C-section is open and the theorem evaluates
there to the strip sum. -/
theorem compute_torsion_open_strips_witness :
    isClosed cSectionSegs = false ∧
      (compute_torsion cSectionSegs 10).rigidity =
        (cSectionSegs.map fun s => 1/3 * s.shearModulus * s.length * s.thickness ^ 3).sum :=
  ⟨by simp [isClosed, cSectionSegs],
   compute_torsion_open_strips cSectionSegs 10
     (by simp [isClosed, cSectionSegs])⟩

/-- C6: For the Case-4 rectangular box (width 0.2 m, height 0.1 m, covers
20 GPa / 2 mm, webs 35 GPa / 1 mm) under a torque of 10,000 N·m, the computed
shear flow is `q = torque/(2·0.02) = 250,000` N/m, and the rigidity obtained
from the loop-integral formula reproduces the worked example's reference value
`Case4.J_torsion` exactly, hence within 1%. -/
theorem box_torsion_end_to_end :
    Case4.q (Case4.Mx 10) = 250000 ∧
      (compute_torsion boxSegs 10000).rigidity = Case4.J_torsion ∧
      |(compute_torsion boxSegs 10000).rigidity - Case4.J_torsion| ≤
        Case4.J_torsion / 100 := by
  refine ⟨?_, ?_, ?_⟩
  · norm_num [Case4.q, Case4.Mx, Case4.Ah, Case4.h, Case4.b]
  · simp [compute_torsion, boxSegs, enclosedArea, segCross, loopCompliance, isClosed,
      Case4.J_torsion, Case4.int_ds_mut, Case4.Ah, Case4.h, Case4.b]
    norm_num
  · have h : (compute_torsion boxSegs 10000).rigidity = Case4.J_torsion := by
      simp [compute_torsion, boxSegs, enclosedArea, segCross, loopCompliance, isClosed,
        Case4.J_torsion, Case4.int_ds_mut, Case4.Ah, Case4.h, Case4.b]
      norm_num
    rw [h]
    norm_num [Case4.J_torsion, Case4.int_ds_mut, Case4.Ah, Case4.h, Case4.b]

end Engine

/-- C9: The Case-3 trapezoid results (EI_yy, open flow at B, correction flux,
final flow at AC mid) are the same hardcoded constants for every shear-force
input, and the Case-4 warping displacement is the constant −0.133 mm for every
torque input: none of these outputs depends on the load. -/
theorem hardcoded_case_outputs_load_independent :
    (∀ tz : ℚ, Case3.EI_yy tz = 405e3 ∧ Case3.q_open_B tz = 8.3e3 ∧
      Case3.q_correction tz = 9.4e3 ∧ Case3.q_final_AC_mid tz = 1.1e3) ∧
    (∀ mx : ℚ, Case4.u_warping mx = -0.133) := by
  exact ⟨fun _ => ⟨rfl, rfl, rfl, rfl⟩, fun _ => rfl⟩

/-- C10: In both open-section torsion cases (Case 5 C-section and Case 6
I-section), the reported maximum shear stress of each wall, converted from MPa
back to Pa, equals that wall's own `shear_modulus · thickness · twist_rate`,
with the twist rate `θ' = torque / GJ`. -/
theorem open_torsion_wall_stress (mx5 mx6 : ℚ) :
    Case5.tau_web mx5 * 1e6 = Case5.Gw * Case5.tw * (mx5 / Case5.J_torsion) ∧
    Case5.tau_flange mx5 * 1e6 = Case5.Gf * Case5.tf * (mx5 / Case5.J_torsion) ∧
    Case6.tau_w mx6 * 1e6 = Case6.Gw * Case6.tw * (mx6 / Case6.J_torsion) ∧
    Case6.tau_f mx6 * 1e6 = Case6.Gf * Case6.tf * (mx6 / Case6.J_torsion) := by
  refine ⟨?_, ?_, ?_, ?_⟩ <;>
    · simp only [Case5.tau_web, Case5.tau_flange, Case5.theta_prime,
        Case6.tau_w, Case6.tau_f, Case6.theta_prime]
      norm_num

namespace Engine

/-! ### Stiffness assembler (modelled from the spec §4.1)

Moments are integrated with the exact polynomial antiderivative along each
straight segment, weighted by the segment's own modulus and thickness, and are
taken about the modulus-weighted centroid of the section — the reference axis
for which the spec's shear-flow formulas (§4.2) and its degeneracy criterion
`D ≤ 0` for collinear sections are meaningful. -/

/-- Total modulus-weighted weight `Σ E·t·L`. -/
def totalWeight (segs : List Segment) : ℚ := (segs.map Segment.axialWeight).sum

/-- Modulus-weighted first moment `Σ ∫E·t·y ds` (exact for straight
segments: `w·(y₀+y₁)/2`). -/
def momY (segs : List Segment) : ℚ :=
  (segs.map fun s => s.axialWeight * (s.startY + s.endY) / 2).sum

/-- Modulus-weighted first moment `Σ ∫E·t·z ds`. -/
def momZ (segs : List Segment) : ℚ :=
  (segs.map fun s => s.axialWeight * (s.startZ + s.endZ) / 2).sum

/-- y-coordinate of the modulus-weighted centroid. -/
def centroidY (segs : List Segment) : ℚ := momY segs / totalWeight segs

/-- z-coordinate of the modulus-weighted centroid. -/
def centroidZ (segs : List Segment) : ℚ := momZ segs / totalWeight segs

/-- Translate a segment so that the point `(yc, zc)` becomes the origin. -/
def centerSeg (yc zc : ℚ) (s : Segment) : Segment :=
  { s with startY := s.startY - yc, endY := s.endY - yc,
           startZ := s.startZ - zc, endZ := s.endZ - zc }

/-- The section expressed in centroid-relative coordinates. -/
def centered (segs : List Segment) : List Segment :=
  segs.map (centerSeg (centroidY segs) (centroidZ segs))

/-- Exact `∫E·t·z² ds` over one straight segment. -/
def segEIyy (s : Segment) : ℚ :=
  s.axialWeight * (s.startZ ^ 2 + s.startZ * s.endZ + s.endZ ^ 2) / 3

/-- Exact `∫E·t·y² ds` over one straight segment. -/
def segEIzz (s : Segment) : ℚ :=
  s.axialWeight * (s.startY ^ 2 + s.startY * s.endY + s.endY ^ 2) / 3

/-- Exact `∫E·t·y·z ds` over one straight segment. -/
def segEIyz (s : Segment) : ℚ :=
  s.axialWeight *
    (2 * s.startY * s.startZ + s.startY * s.endZ + s.endY * s.startZ +
      2 * s.endY * s.endZ) / 6

/-- Bending stiffness `EI_yy` about the modulus-weighted centroid. -/
def EI_yy (segs : List Segment) : ℚ := ((centered segs).map segEIyy).sum

/-- Bending stiffness `EI_zz` about the modulus-weighted centroid. -/
def EI_zz (segs : List Segment) : ℚ := ((centered segs).map segEIzz).sum

/-- Product stiffness `EI_yz` about the modulus-weighted centroid. -/
def EI_yz (segs : List Segment) : ℚ := ((centered segs).map segEIyz).sum

/-- Stiffness determinant `D = EI_yy·EI_zz − EI_yz²`. -/
def Ddet (segs : List Segment) : ℚ := EI_yy segs * EI_zz segs - EI_yz segs ^ 2

/-- Modelled from the spec §3: the 2×2 modulus-weighted bending-stiffness
tensor plus its determinant. -/
structure StiffnessTensor where
  EIyy : ℚ
  EIzz : ℚ
  EIyz : ℚ
  Dval : ℚ
deriving DecidableEq

/-- Modelled from the spec §4.1: `compute_stiffness` — fails with
`DegenerateSectionError` when the section has fewer than one segment or when
the determinant `D = EI_yy·EI_zz − EI_yz²` is non-positive; on failure no
partial result is produced. -/
def compute_stiffness (segs : List Segment) : Except SectionError StiffnessTensor :=
  if segs.length < 1 then .error .degenerateSection
  else if Ddet segs ≤ 0 then .error .degenerateSection
  else .ok ⟨EI_yy segs, EI_zz segs, EI_yz segs, Ddet segs⟩

theorem validSegs_mem {segs : List Segment} (h : validSegs segs = true)
    {s : Segment} (hs : s ∈ segs) :
    0 < s.length ∧ 0 < s.thickness ∧ 0 < s.modulus ∧ 0 < s.shearModulus := by
  simp only [validSegs, List.all_eq_true, Bool.and_eq_true, decide_eq_true_eq] at h
  obtain ⟨⟨⟨h1, h2⟩, h3⟩, h4⟩ := h s hs
  exact ⟨h1, h2, h3, h4⟩

theorem axialWeight_pos {segs : List Segment} (h : validSegs segs = true)
    {s : Segment} (hs : s ∈ segs) : 0 < s.axialWeight := by
  obtain ⟨h1, h2, h3, _⟩ := validSegs_mem h hs
  have := mul_pos (mul_pos h3 h2) h1
  simpa [Segment.axialWeight] using this

/-- About its own modulus-weighted centroid a single straight segment has
linearly dependent coordinates, so its stiffness determinant vanishes. -/
theorem Ddet_single (s : Segment) (hw : s.axialWeight ≠ 0) : Ddet [s] = 0 := by
  have hw' : s.modulus * s.thickness * s.length ≠ 0 := hw
  simp only [Ddet, EI_yy, EI_zz, EI_yz, centered, centroidY, centroidZ, momY, momZ,
    totalWeight, List.map_cons, List.map_nil, List.sum_cons, List.sum_nil, add_zero,
    centerSeg, segEIyy, segEIzz, segEIyz, Segment.axialWeight]
  field_simp
  ring

/-- C8: `compute_stiffness` fails with `DegenerateSectionError`, returning no
partial result, whenever the section has fewer than one segment, whenever it
consists of a single (well-formed) straight segment, or whenever the
determinant `D = EI_yy·EI_zz − EI_yz²` is non-positive. -/
theorem compute_stiffness_degenerate (segs : List Segment)
    (h : segs.length < 1 ∨ (segs.length = 1 ∧ validSegs segs = true) ∨
      Ddet segs ≤ 0) :
    compute_stiffness segs = .error .degenerateSection := by
  rcases h with h | ⟨h1, h2⟩ | h
  · simp [compute_stiffness, h]
  · obtain ⟨s, rfl⟩ : ∃ s, segs = [s] := by
      match segs, h1 with
      | [s], _ => exact ⟨s, rfl⟩
    have hw : s.axialWeight ≠ 0 := ne_of_gt (axialWeight_pos h2 (by simp))
    simp [compute_stiffness, Ddet_single s hw]
  · simp [compute_stiffness, h]

/-- Witness for C8: a single well-formed straight segment (offset from the
origin, so that its determinant about the raw axes would be positive) is
rejected. -/
theorem compute_stiffness_degenerate_witness :
    ((([⟨0, 1, 1, 1, 1, 1, 1, 1⟩] : List Segment).length < 1 ∨
      (([⟨0, 1, 1, 1, 1, 1, 1, 1⟩] : List Segment).length = 1 ∧
        validSegs [⟨0, 1, 1, 1, 1, 1, 1, 1⟩] = true) ∨
      Ddet [⟨0, 1, 1, 1, 1, 1, 1, 1⟩] ≤ 0)) ∧
    compute_stiffness [⟨0, 1, 1, 1, 1, 1, 1, 1⟩] = .error .degenerateSection := by
  have h : (([⟨0, 1, 1, 1, 1, 1, 1, 1⟩] : List Segment).length < 1 ∨
      (([⟨0, 1, 1, 1, 1, 1, 1, 1⟩] : List Segment).length = 1 ∧
        validSegs [⟨0, 1, 1, 1, 1, 1, 1, 1⟩] = true) ∨
      Ddet [⟨0, 1, 1, 1, 1, 1, 1, 1⟩] ≤ 0) := by
    refine Or.inr (Or.inl ⟨rfl, ?_⟩)
    simp [validSegs]
  exact ⟨h, compute_stiffness_degenerate _ h⟩

end Engine

namespace Engine

/-! ### Warping evaluator (modelled from the spec §4.4) -/

/-- Area swept by the radius vector from the twist center `(cy, cz)` along one
straight wall segment (half the cross product of radius and chord). -/
def sweptTerm (cy cz : ℚ) (s : Segment) : ℚ :=
  ((s.startY - cy) * (s.endZ - s.startZ) - (s.startZ - cz) * (s.endY - s.startY)) / 2

/-- Sectorial area swept from the zero-warping reference point (the start of
segment 0) to the node reached after `m` segments of the loop. -/
def sweptArea (cy cz : ℚ) (segs : List Segment) (m : ℕ) : ℚ :=
  ((segs.take m).map (sweptTerm cy cz)).sum

/-- Running warping accumulator along the wall: each traversed segment
contributes `−2 · (swept area of the segment) · θ'`. -/
def warpAcc (cy cz tr : ℚ) : List Segment → ℕ → ℚ
  | _, 0 => 0
  | [], _ + 1 => 0
  | s :: rest, m + 1 => -2 * sweptTerm cy cz s * tr + warpAcc cy cz tr rest m

/-- Modelled from the spec §4.4: `compute_warping` for CLOSED sections —
warping displacement at the node reached after `m` segments from the
zero-warping reference point, accumulated along the loop for twist rate
`twistRate` about the twist center `(cy, cz)`.  (The spec's OPEN-section
branch is described only qualitatively and is not modelled.) -/
def compute_warping (cy cz : ℚ) (segs : List Segment) (twistRate : ℚ) (m : ℕ) : ℚ :=
  warpAcc cy cz twistRate segs m

theorem warpAcc_eq_sweptArea (cy cz tr : ℚ) :
    ∀ (segs : List Segment) (m : ℕ),
      warpAcc cy cz tr segs m = -2 * sweptArea cy cz segs m * tr
  | _, 0 => by simp [warpAcc, sweptArea]
  | [], m + 1 => by simp [warpAcc, sweptArea]
  | s :: rest, m + 1 => by
    simp only [warpAcc, sweptArea, List.take_succ_cons, List.map_cons, List.sum_cons,
      warpAcc_eq_sweptArea cy cz tr rest m]
    ring

/-- C5: For every CLOSED section, every twist rate θ' and every reference node
P along the loop, `compute_warping` returns `u(P) = −2 · swept_area(P) · θ'`,
with `swept_area(P)` the sectorial area swept from the zero-warping reference
point to P. -/
theorem compute_warping_closed (cy cz tr : ℚ) (segs : List Segment)
    (_hc : isClosed segs = true) (m : ℕ) :
    compute_warping cy cz segs tr m = -2 * sweptArea cy cz segs m * tr :=
  warpAcc_eq_sweptArea cy cz tr segs m

/-- Witness for C5: evaluation on the closed Case-4 box about its center, two
segments along the loop, unit twist rate. -/
theorem compute_warping_closed_witness :
    isClosed boxSegs = true ∧
      compute_warping (1/10) (1/20) boxSegs 1 2 =
        -2 * sweptArea (1/10) (1/20) boxSegs 2 * 1 :=
  ⟨by simp [isClosed, boxSegs],
   compute_warping_closed (1/10) (1/20) 1 boxSegs (by simp [isClosed, boxSegs]) 2⟩

end Engine

namespace Engine

/-! ### Shear flow solver (modelled from the spec §4.2)

The open shear flow is the running modulus-weighted first-moment integral
accumulated from the free edge (OPEN) or the cut point (CLOSED), expressed in
centroid-relative coordinates; positions are addressed as (segment index,
local arc-length coordinate).  A closed cell then receives a uniform
correction flow `q0` from the moment equilibrium around the loop. -/

/-- Full `∫E·t·z ds` over one straight segment (centroid-relative input). -/
def segFz (s : Segment) : ℚ := s.axialWeight * (s.startZ + s.endZ) / 2

/-- Full `∫E·t·y ds` over one straight segment. -/
def segFy (s : Segment) : ℚ := s.axialWeight * (s.startY + s.endY) / 2

/-- Running sum of `∫E·t·z ds` over the first `i` whole segments of `l`. -/
def accFz (l : List Segment) (i : ℕ) : ℚ := ((l.take i).map segFz).sum

/-- Running sum of `∫E·t·y ds` over the first `i` whole segments of `l`. -/
def accFy (l : List Segment) (i : ℕ) : ℚ := ((l.take i).map segFy).sum

/-- Partial `∫E·t·z ds` along a segment up to local coordinate `u`, from the
exact antiderivative of the linear coordinate `z(u) = z₀ + (z₁−z₀)·u/L`. -/
def partialFz (s : Segment) (u : ℚ) : ℚ :=
  s.modulus * s.thickness *
    (s.startZ * u + (s.endZ - s.startZ) * u ^ 2 / (2 * s.length))

/-- Partial `∫E·t·y ds` along a segment up to local coordinate `u`. -/
def partialFy (s : Segment) (u : ℚ) : ℚ :=
  s.modulus * s.thickness *
    (s.startY * u + (s.endY - s.startY) * u ^ 2 / (2 * s.length))

/-- Modelled from the spec §4.2 step 1: open shear flow at local coordinate
`u` of segment `i`,
`q_open = (Tz/D)·[EI_zz·∫E·t·z ds − EI_yz·∫E·t·y ds]`
with the integrals accumulated from the start point. -/
def q_open (segs : List Segment) (Tz : ℚ) (i : ℕ) (u : ℚ) : ℚ :=
  (Tz / Ddet segs) *
    (EI_zz segs *
        (accFz (centered segs) i +
          partialFz ((centered segs).getD i defaultSeg) u) -
      EI_yz segs *
        (accFy (centered segs) i +
          partialFy ((centered segs).getD i defaultSeg) u))

theorem partialFz_zero (s : Segment) : partialFz s 0 = 0 := by
  simp [partialFz]

theorem partialFy_zero (s : Segment) : partialFy s 0 = 0 := by
  simp [partialFy]

theorem partialFz_length (s : Segment) (h : s.length ≠ 0) :
    partialFz s s.length = segFz s := by
  unfold partialFz segFz Segment.axialWeight
  field_simp
  ring

theorem partialFy_length (s : Segment) (h : s.length ≠ 0) :
    partialFy s s.length = segFy s := by
  unfold partialFy segFy Segment.axialWeight
  field_simp
  ring

theorem acc_take_succ (f : Segment → ℚ) (l : List Segment) (i : ℕ)
    (h : i < l.length) :
    ((l.take (i + 1)).map f).sum =
      ((l.take i).map f).sum + f (l.getD i defaultSeg) := by
  rw [List.take_succ, List.map_append, List.sum_append,
    List.getElem?_eq_getElem h, List.getD_eq_getElem?_getD,
    List.getElem?_eq_getElem h]
  simp

theorem centerSeg_length (yc zc : ℚ) (s : Segment) :
    (centerSeg yc zc s).length = s.length := rfl

theorem centered_length (segs : List Segment) :
    (centered segs).length = segs.length := by
  simp [centered]

theorem centered_getD (segs : List Segment) (i : ℕ) (h : i < segs.length) :
    (centered segs).getD i defaultSeg =
      centerSeg (centroidY segs) (centroidZ segs) (segs.getD i defaultSeg) := by
  simp [centered, List.getD_eq_getElem?_getD, List.getElem?_map,
    List.getElem?_eq_getElem h]

/-- C3: the open shear flow is zero at the free edge / cut point, is the
running sum `(Tz/D)·[EI_zz·∫E·t·z ds − EI_yz·∫E·t·y ds]` accumulated from
there, and is continuous across segment boundaries: its value at the end of
segment `i` equals its value at the start of segment `i+1`. -/
theorem q_open_running_sum (segs : List Segment) (Tz : ℚ)
    (hv : validSegs segs = true) :
    q_open segs Tz 0 0 = 0 ∧
      (∀ i u, q_open segs Tz i u =
        (Tz / Ddet segs) *
          (EI_zz segs *
              (accFz (centered segs) i +
                partialFz ((centered segs).getD i defaultSeg) u) -
            EI_yz segs *
              (accFy (centered segs) i +
                partialFy ((centered segs).getD i defaultSeg) u))) ∧
      (∀ i, i + 1 < segs.length →
        q_open segs Tz i (segs.getD i defaultSeg).length =
          q_open segs Tz (i + 1) 0) := by
  refine ⟨?_, fun i u => rfl, ?_⟩
  · simp [q_open, accFz, accFy, partialFz_zero, partialFy_zero]
  · intro i hi
    have hi' : i < segs.length := by omega
    have hci : i < (centered segs).length := by rw [centered_length]; exact hi'
    have hgd := centered_getD segs i hi'
    have hmem : segs.getD i defaultSeg ∈ segs := by
      rw [List.getD_eq_getElem?_getD, List.getElem?_eq_getElem hi']
      exact List.getElem_mem hi'
    have hlen : (segs.getD i defaultSeg).length ≠ 0 :=
      ne_of_gt (validSegs_mem hv hmem).1
    have hclen : ((centered segs).getD i defaultSeg).length =
        (segs.getD i defaultSeg).length := by
      rw [hgd]; rfl
    unfold q_open
    rw [partialFz_zero, partialFy_zero, add_zero, add_zero]
    simp only [accFz, accFy]
    rw [acc_take_succ segFz _ i hci, acc_take_succ segFy _ i hci,
      ← hclen, partialFz_length _ (by rw [hclen]; exact hlen),
      partialFy_length _ (by rw [hclen]; exact hlen)]

/-- Witness for C3: evaluation on the Case-4 box with a 2 kN shear load — the
flow vanishes at the cut point. -/
theorem q_open_running_sum_witness :
    validSegs boxSegs = true ∧ q_open boxSegs 2000 0 0 = 0 :=
  ⟨by simp [validSegs, boxSegs]; norm_num,
   (q_open_running_sum boxSegs 2000 (by simp [validSegs, boxSegs]; norm_num)).1⟩

end Engine

namespace Engine

/-- Cross product of the radius vector from the moment center `(oy, oz)` to
the segment's start with the segment's chord; equals `p·L` for the
perpendicular distance `p` from the moment center to the wall's line. -/
def crossO (oy oz : ℚ) (s : Segment) : ℚ :=
  (s.startY - oy) * (s.endZ - s.startZ) - (s.startZ - oz) * (s.endY - s.startY)

/-- Signed perpendicular distance from the moment center `(oy, oz)` to the
tangent line of the wall segment. -/
def perpDist (oy oz : ℚ) (s : Segment) : ℚ := crossO oy oz s / s.length

/-- Exact `∫₀ᴸ (partial ∫E·t·z) du` over one segment:
`E·t·L²·(2z₀+z₁)/6`. -/
def ipFz (s : Segment) : ℚ :=
  s.modulus * s.thickness * s.length ^ 2 * (2 * s.startZ + s.endZ) / 6

/-- Exact `∫₀ᴸ (partial ∫E·t·y) du` over one segment. -/
def ipFy (s : Segment) : ℚ :=
  s.modulus * s.thickness * s.length ^ 2 * (2 * s.startY + s.endY) / 6

/-- Exact integral of the open shear flow over segment `i`:
`∫₀ᴸᵢ q_open(i,u) du` in closed form. -/
def qIntegral (segs : List Segment) (Tz : ℚ) (i : ℕ) : ℚ :=
  (Tz / Ddet segs) *
    (EI_zz segs *
        (accFz (centered segs) i * ((centered segs).getD i defaultSeg).length +
          ipFz ((centered segs).getD i defaultSeg)) -
      EI_yz segs *
        (accFy (centered segs) i * ((centered segs).getD i defaultSeg).length +
          ipFy ((centered segs).getD i defaultSeg)))

/-- Running accumulation of the loop moment `∮ p·q_open ds` over a
(centroid-relative) segment list: the pair `(az, ay)` carries the first-moment
integrals accumulated before the current segment. -/
def momentFold (py pz Dd Zc Yc Tz : ℚ) : List Segment → ℚ → ℚ → ℚ
  | [], _, _ => 0
  | s :: rest, az, ay =>
      perpDist py pz s *
          ((Tz / Dd) * (Zc * (az * s.length + ipFz s) - Yc * (ay * s.length + ipFy s))) +
        momentFold py pz Dd Zc Yc Tz rest (az + segFz s) (ay + segFy s)

/-- Loop moment `∮ p(s)·q_open(s) ds` of the open flow about the moment
center `(oy, oz)`, accumulated around the whole loop. -/
def momentLoop (oy oz : ℚ) (segs : List Segment) (Tz : ℚ) : ℚ :=
  momentFold (oy - centroidY segs) (oz - centroidZ segs) (Ddet segs)
    (EI_zz segs) (EI_yz segs) Tz (centered segs) 0 0

/-- Modelled from the spec §4.2 step 2: the uniform closing flow
`q0 = −(∮ p·q_open ds)/(2·enclosed_area)`. -/
def q0 (oy oz : ℚ) (segs : List Segment) (Tz : ℚ) : ℚ :=
  -momentLoop oy oz segs Tz / (2 * enclosedArea segs)

/-- Final closed-cell shear flow: `q_open + q0` everywhere. -/
def finalFlow (oy oz : ℚ) (segs : List Segment) (Tz : ℚ) (i : ℕ) (u : ℚ) : ℚ :=
  q_open segs Tz i u + q0 oy oz segs Tz

/-- Modelled from the spec §4.2: `compute_shear_flow` — the open running-sum
flow for OPEN topology, with the superposed uniform correction `q0` for
CLOSED_SINGLE_CELL topology.  The returned field maps (segment index, local
coordinate) to the flow value. -/
def compute_shear_flow (oy oz : ℚ) (segs : List Segment) (Tz : ℚ) :
    ℕ → ℚ → ℚ :=
  if isClosed segs then finalFlow oy oz segs Tz else q_open segs Tz

theorem momentFold_eq_sum (py pz Dd Zc Yc Tz : ℚ) :
    ∀ (l : List Segment) (az ay : ℚ),
      momentFold py pz Dd Zc Yc Tz l az ay =
        ((List.range l.length).map fun j =>
          perpDist py pz (l.getD j defaultSeg) *
            ((Tz / Dd) *
              (Zc * ((accFz l j + az) * (l.getD j defaultSeg).length +
                  ipFz (l.getD j defaultSeg)) -
                Yc * ((accFy l j + ay) * (l.getD j defaultSeg).length +
                  ipFy (l.getD j defaultSeg))))).sum
  | [], az, ay => by simp [momentFold]
  | s :: rest, az, ay => by
    rw [momentFold, momentFold_eq_sum py pz Dd Zc Yc Tz rest (az + segFz s) (ay + segFy s)]
    simp only [List.length_cons, List.range_succ_eq_map, List.map_cons, List.sum_cons,
      List.map_map]
    congr 1
    · simp only [List.getD_cons_zero, accFz, accFy, List.take_zero, List.map_nil,
        List.sum_nil, zero_add]
    · congr 1
      refine List.map_congr_left fun j _ => ?_
      simp only [Function.comp_apply, List.getD_cons_succ, accFz, accFy,
        List.take_succ_cons, List.map_cons, List.sum_cons]
      ring

theorem crossO_center (oy oz yc zc : ℚ) (s : Segment) :
    crossO (oy - yc) (oz - zc) (centerSeg yc zc s) = crossO oy oz s := by
  simp only [crossO, centerSeg]
  ring

theorem perpDist_center (oy oz yc zc : ℚ) (s : Segment) :
    perpDist (oy - yc) (oz - zc) (centerSeg yc zc s) = perpDist oy oz s := by
  simp only [perpDist, crossO_center, centerSeg_length]

/-- C4: for every CLOSED_SINGLE_CELL section, `compute_shear_flow` returns
`q_open(s) + q0` at every position, with the single uniform correction
`q0 = −(∮ p(s)·q_open(s) ds)/(2·enclosed_area)`, the loop integral being the
sum over segments of the perpendicular moment arm `p` times the exact integral
of the open flow along the segment. -/
theorem compute_shear_flow_closed_correction (oy oz : ℚ) (segs : List Segment)
    (Tz : ℚ) (hc : isClosed segs = true) (i : ℕ) (u : ℚ) :
    compute_shear_flow oy oz segs Tz i u =
      q_open segs Tz i u +
        -(((List.range segs.length).map fun j =>
            perpDist oy oz (segs.getD j defaultSeg) * qIntegral segs Tz j).sum) /
          (2 * enclosedArea segs) := by
  have hml : momentLoop oy oz segs Tz =
      ((List.range segs.length).map fun j =>
        perpDist oy oz (segs.getD j defaultSeg) * qIntegral segs Tz j).sum := by
    rw [momentLoop, momentFold_eq_sum, centered_length]
    refine congrArg List.sum (List.map_congr_left fun j hj => ?_)
    have hj' : j < segs.length := List.mem_range.mp hj
    rw [centered_getD segs j hj', perpDist_center, qIntegral,
      centered_getD segs j hj']
    simp only [add_zero]
  simp only [compute_shear_flow, hc, if_pos, finalFlow, q0, hml]

/-- Witness for C4: evaluation on the Case-4 box at the cut point with a 2 kN
shear load and the moment center at the origin. -/
theorem compute_shear_flow_closed_correction_witness :
    isClosed boxSegs = true ∧
      compute_shear_flow 0 0 boxSegs 2000 0 0 =
        q_open boxSegs 2000 0 0 +
          -(((List.range boxSegs.length).map fun j =>
              perpDist 0 0 (boxSegs.getD j defaultSeg) * qIntegral boxSegs 2000 j).sum) /
            (2 * enclosedArea boxSegs) :=
  ⟨by simp [isClosed, boxSegs],
   compute_shear_flow_closed_correction 0 0 boxSegs 2000
     (by simp [isClosed, boxSegs]) 0 0⟩

end Engine

namespace Engine

/-! ### Cut-point invariance machinery -/

theorem sum_map_add {α : Type} (l : List α) (f g : α → ℚ) :
    (l.map fun a => f a + g a).sum = (l.map f).sum + (l.map g).sum := by
  induction l with
  | nil => simp
  | cons a l ih => simp only [List.map_cons, List.sum_cons, ih]; ring

theorem sum_map_sub {α : Type} (l : List α) (f g : α → ℚ) :
    (l.map fun a => f a - g a).sum = (l.map f).sum - (l.map g).sum := by
  induction l with
  | nil => simp
  | cons a l ih => simp only [List.map_cons, List.sum_cons, ih]; ring

theorem sum_map_mul_left {α : Type} (l : List α) (c : ℚ) (f : α → ℚ) :
    (l.map fun a => c * f a).sum = c * (l.map f).sum := by
  induction l with
  | nil => simp
  | cons a l ih => simp only [List.map_cons, List.sum_cons, ih]; ring

theorem rotate_map_sum (f : Segment → ℚ) (l : List Segment) (k : ℕ) :
    ((l.rotate k).map f).sum = (l.map f).sum := by
  rw [List.map_rotate]
  exact ((l.map f).rotate_perm k).sum_eq

theorem totalWeight_rotate (segs : List Segment) (k : ℕ) :
    totalWeight (segs.rotate k) = totalWeight segs := by
  unfold totalWeight; exact rotate_map_sum _ segs k

theorem momY_rotate (segs : List Segment) (k : ℕ) :
    momY (segs.rotate k) = momY segs := by
  unfold momY; exact rotate_map_sum _ segs k

theorem momZ_rotate (segs : List Segment) (k : ℕ) :
    momZ (segs.rotate k) = momZ segs := by
  unfold momZ; exact rotate_map_sum _ segs k

theorem centroidY_rotate (segs : List Segment) (k : ℕ) :
    centroidY (segs.rotate k) = centroidY segs := by
  unfold centroidY; rw [momY_rotate, totalWeight_rotate]

theorem centroidZ_rotate (segs : List Segment) (k : ℕ) :
    centroidZ (segs.rotate k) = centroidZ segs := by
  unfold centroidZ; rw [momZ_rotate, totalWeight_rotate]

theorem enclosedArea_rotate (segs : List Segment) (k : ℕ) :
    enclosedArea (segs.rotate k) = enclosedArea segs := by
  unfold enclosedArea; rw [rotate_map_sum]

theorem centered_rotate (segs : List Segment) (k : ℕ) :
    centered (segs.rotate k) = (centered segs).rotate k := by
  unfold centered
  rw [centroidY_rotate, centroidZ_rotate, List.map_rotate]

theorem EI_yy_rotate (segs : List Segment) (k : ℕ) :
    EI_yy (segs.rotate k) = EI_yy segs := by
  unfold EI_yy; rw [centered_rotate, rotate_map_sum]

theorem EI_zz_rotate (segs : List Segment) (k : ℕ) :
    EI_zz (segs.rotate k) = EI_zz segs := by
  unfold EI_zz; rw [centered_rotate, rotate_map_sum]

theorem EI_yz_rotate (segs : List Segment) (k : ℕ) :
    EI_yz (segs.rotate k) = EI_yz segs := by
  unfold EI_yz; rw [centered_rotate, rotate_map_sum]

theorem Ddet_rotate (segs : List Segment) (k : ℕ) :
    Ddet (segs.rotate k) = Ddet segs := by
  unfold Ddet; rw [EI_yy_rotate, EI_zz_rotate, EI_yz_rotate]

theorem totalWeight_pos (segs : List Segment) (hv : validSegs segs = true)
    (hne : segs ≠ []) : 0 < totalWeight segs := by
  unfold totalWeight
  refine List.sum_pos _ ?_ (by simpa using hne)
  intro x hx
  obtain ⟨s, hs, rfl⟩ := List.mem_map.mp hx
  exact axialWeight_pos hv hs

theorem sum_segFz_centered (segs : List Segment) (hW : totalWeight segs ≠ 0) :
    ((centered segs).map segFz).sum = 0 := by
  unfold centered
  rw [List.map_map]
  have h1 : segs.map (segFz ∘ centerSeg (centroidY segs) (centroidZ segs)) =
      segs.map fun s => segFz s - centroidZ segs * s.axialWeight :=
    List.map_congr_left fun s _ => by
      simp only [Function.comp_apply, segFz, centerSeg, Segment.axialWeight]
      ring
  have h2 : (segs.map segFz).sum = momZ segs := rfl
  have h3 : (segs.map Segment.axialWeight).sum = totalWeight segs := rfl
  rw [h1, sum_map_sub, sum_map_mul_left, h2, h3]
  unfold centroidZ
  rw [div_mul_cancel₀ _ hW, sub_self]

theorem sum_segFy_centered (segs : List Segment) (hW : totalWeight segs ≠ 0) :
    ((centered segs).map segFy).sum = 0 := by
  unfold centered
  rw [List.map_map]
  have h1 : segs.map (segFy ∘ centerSeg (centroidY segs) (centroidZ segs)) =
      segs.map fun s => segFy s - centroidY segs * s.axialWeight :=
    List.map_congr_left fun s _ => by
      simp only [Function.comp_apply, segFy, centerSeg, Segment.axialWeight]
      ring
  have h2 : (segs.map segFy).sum = momY segs := rfl
  have h3 : (segs.map Segment.axialWeight).sum = totalWeight segs := rfl
  rw [h1, sum_map_sub, sum_map_mul_left, h2, h3]
  unfold centroidY
  rw [div_mul_cancel₀ _ hW, sub_self]

theorem drop_sum_eq (l : List ℚ) (k : ℕ) :
    (l.drop k).sum = l.sum - (l.take k).sum := by
  have h2 : l.sum = (l.take k).sum + (l.drop k).sum := by
    conv_lhs => rw [← List.take_append_drop k l, List.sum_append]
  linarith

theorem sum_take_rotate (l : List ℚ) (k m : ℕ) (hk : k < l.length)
    (hm : m ≤ l.length) (h0 : l.sum = 0) :
    ((l.rotate k).take m).sum =
      (l.take ((m + k) % l.length)).sum - (l.take k).sum := by
  rw [List.rotate_eq_drop_append_take hk.le]
  by_cases h : m ≤ l.length - k
  · rw [List.take_append_of_le_length (by rw [List.length_drop]; exact h)]
    have hsum : ((l.drop k).take m).sum = (l.take (k + m)).sum - (l.take k).sum := by
      rw [List.take_add, List.sum_append]
      ring
    rw [hsum]
    rcases Nat.lt_or_ge (k + m) l.length with hlt | hge
    · rw [Nat.add_comm m k, Nat.mod_eq_of_lt hlt]
    · have he : k + m = l.length := by omega
      have h1 : (m + k) % l.length = 0 := by
        rw [Nat.add_comm, he, Nat.mod_self]
      rw [h1, he, List.take_of_length_le le_rfl, h0]
      simp
  · rw [List.take_append_eq_append_take,
      List.take_of_length_le (by rw [List.length_drop]; omega),
      List.sum_append, drop_sum_eq, h0, List.take_take]
    have hmin : min (m - (l.drop k).length) k = m + k - l.length := by
      rw [List.length_drop]; omega
    have hmod : (m + k) % l.length = m + k - l.length := by
      rw [Nat.mod_eq_sub_mod (by omega)]
      exact Nat.mod_eq_of_lt (by omega)
    rw [hmin, hmod]
    ring

theorem accF_rotate (f : Segment → ℚ) (c : List Segment) (k m : ℕ)
    (hk : k < c.length) (hm : m ≤ c.length) (h0 : (c.map f).sum = 0) :
    (((c.rotate k).take m).map f).sum =
      ((c.take ((m + k) % c.length)).map f).sum - ((c.take k).map f).sum := by
  rw [List.map_take, List.map_take, List.map_take, List.map_rotate]
  rw [sum_take_rotate (c.map f) k m (by simpa using hk) (by simpa using hm) h0,
    List.length_map]

theorem getD_rotate (l : List Segment) (k m : ℕ) (hm : m < l.length) :
    (l.rotate k).getD m defaultSeg = l.getD ((m + k) % l.length) defaultSeg := by
  rw [List.getD_eq_getElem?_getD, List.getD_eq_getElem?_getD,
    List.getElem?_rotate hm]

end Engine

namespace Engine

theorem chained_tele_y : ∀ (l : List Segment) (s : Segment), Chained (s :: l) →
    ((s :: l).map fun t => t.endY - t.startY).sum =
      ((s :: l).getLast (List.cons_ne_nil s l)).endY - s.startY
  | [], s, _ => by simp
  | t :: l, s, h => by
    unfold Chained at h
    have h1 : s.endY = t.startY := (List.chain'_cons.mp h).1.1
    have h2 : Chained (t :: l) := (List.chain'_cons.mp h).2
    have ih := chained_tele_y l t h2
    rw [List.getLast_cons (List.cons_ne_nil t l)]
    simp only [List.map_cons, List.sum_cons] at ih ⊢
    linarith [ih]

theorem chained_tele_z : ∀ (l : List Segment) (s : Segment), Chained (s :: l) →
    ((s :: l).map fun t => t.endZ - t.startZ).sum =
      ((s :: l).getLast (List.cons_ne_nil s l)).endZ - s.startZ
  | [], s, _ => by simp
  | t :: l, s, h => by
    unfold Chained at h
    have h1 : s.endZ = t.startZ := (List.chain'_cons.mp h).1.2
    have h2 : Chained (t :: l) := (List.chain'_cons.mp h).2
    have ih := chained_tele_z l t h2
    rw [List.getLast_cons (List.cons_ne_nil t l)]
    simp only [List.map_cons, List.sum_cons] at ih ⊢
    linarith [ih]

theorem isClosed_spec (l : List Segment) (s : Segment)
    (h : isClosed (s :: l) = true) :
    ((s :: l).getLast (List.cons_ne_nil s l)).endY = s.startY ∧
      ((s :: l).getLast (List.cons_ne_nil s l)).endZ = s.startZ := by
  unfold isClosed at h
  rw [List.head?_cons, List.getLast?_eq_getLast (s :: l) (List.cons_ne_nil s l)] at h
  simpa [Bool.and_eq_true, decide_eq_true_eq] using h

theorem closedLoop_sum_dy (segs : List Segment) (hcl : ClosedLoop segs) :
    (segs.map fun s => s.endY - s.startY).sum = 0 := by
  obtain ⟨hch, hc⟩ := hcl
  cases segs with
  | nil => simp
  | cons s l => rw [chained_tele_y l s hch, (isClosed_spec l s hc).1, sub_self]

theorem closedLoop_sum_dz (segs : List Segment) (hcl : ClosedLoop segs) :
    (segs.map fun s => s.endZ - s.startZ).sum = 0 := by
  obtain ⟨hch, hc⟩ := hcl
  cases segs with
  | nil => simp
  | cons s l => rw [chained_tele_z l s hch, (isClosed_spec l s hc).2, sub_self]

/-- The moment arms around a closed loop sweep twice the enclosed area, for
any choice of the moment center. -/
theorem sum_crossO (oy oz : ℚ) (segs : List Segment) (hcl : ClosedLoop segs) :
    (segs.map (crossO oy oz)).sum = 2 * enclosedArea segs := by
  have h1 : segs.map (crossO oy oz) =
      segs.map fun s =>
        segCross s + ((-oy) * (s.endZ - s.startZ) + oz * (s.endY - s.startY)) :=
    List.map_congr_left fun s _ => by unfold crossO segCross; ring
  rw [h1,
    sum_map_add segs segCross
      (fun s => (-oy) * (s.endZ - s.startZ) + oz * (s.endY - s.startY)),
    sum_map_add segs (fun s => (-oy) * (s.endZ - s.startZ))
      (fun s => oz * (s.endY - s.startY)),
    sum_map_mul_left segs (-oy) (fun s => s.endZ - s.startZ),
    sum_map_mul_left segs oz (fun s => s.endY - s.startY),
    closedLoop_sum_dy segs hcl, closedLoop_sum_dz segs hcl]
  unfold enclosedArea
  ring

theorem isClosed_iff_getD (segs : List Segment) (hne : segs ≠ []) :
    isClosed segs = true ↔
      ((segs.getD (segs.length - 1) defaultSeg).endY =
          (segs.getD 0 defaultSeg).startY ∧
        (segs.getD (segs.length - 1) defaultSeg).endZ =
          (segs.getD 0 defaultSeg).startZ) := by
  have h0 : 0 < segs.length := List.length_pos.mpr hne
  unfold isClosed
  rw [List.head?_eq_getElem? segs, List.getLast?_eq_getElem? segs,
    List.getElem?_eq_getElem h0,
    List.getElem?_eq_getElem (by omega : segs.length - 1 < segs.length)]
  simp [Bool.and_eq_true, decide_eq_true_eq, List.getD_eq_getElem?_getD,
    List.getElem?_eq_getElem, h0]

theorem closedLoop_adjacent (segs : List Segment) (hcl : ClosedLoop segs)
    (i : ℕ) (hi : i < segs.length) :
    (segs.getD i defaultSeg).endY =
        (segs.getD ((i + 1) % segs.length) defaultSeg).startY ∧
      (segs.getD i defaultSeg).endZ =
        (segs.getD ((i + 1) % segs.length) defaultSeg).startZ := by
  obtain ⟨hch, hc⟩ := hcl
  have hne : segs ≠ [] := by intro h; subst h; simp at hi
  rcases Nat.lt_or_ge (i + 1) segs.length with hlt | hge
  · rw [Nat.mod_eq_of_lt hlt]
    unfold Chained at hch
    rw [List.chain'_iff_get] at hch
    have hadj := hch i (by omega)
    rw [List.getD_eq_getElem?_getD, List.getElem?_eq_getElem hi,
      List.getD_eq_getElem?_getD, List.getElem?_eq_getElem hlt]
    simpa [List.get_eq_getElem] using hadj
  · have hi1 : i = segs.length - 1 := by omega
    have hmod : (i + 1) % segs.length = 0 := by
      have h2 : i + 1 = segs.length := by omega
      rw [h2, Nat.mod_self]
    rw [hmod, hi1]
    exact (isClosed_iff_getD segs hne).mp hc

theorem isClosed_rotate (segs : List Segment) (k : ℕ) (hcl : ClosedLoop segs)
    (hk : k < segs.length) : isClosed (segs.rotate k) = true := by
  have h0 : 0 < segs.length := by omega
  have hner : segs.rotate k ≠ [] := by
    intro h
    have hlen := congrArg List.length h
    rw [List.length_rotate] at hlen
    simp only [List.length_nil] at hlen
    omega
  rw [isClosed_iff_getD _ hner, List.length_rotate,
    getD_rotate segs k (segs.length - 1) (by omega),
    getD_rotate segs k 0 h0]
  have hia : (0 + k) % segs.length = k := by
    rw [Nat.zero_add]; exact Nat.mod_eq_of_lt hk
  rw [hia]
  have hi : (segs.length - 1 + k) % segs.length < segs.length := Nat.mod_lt _ h0
  have hnext : ((segs.length - 1 + k) % segs.length + 1) % segs.length = k := by
    rcases Nat.eq_zero_or_pos k with rfl | hkpos
    · have h2 : (segs.length - 1 + 0) % segs.length = segs.length - 1 := by
        rw [Nat.add_zero]; exact Nat.mod_eq_of_lt (by omega)
      rw [h2]
      have h3 : segs.length - 1 + 1 = segs.length := by omega
      rw [h3, Nat.mod_self]
    · have h3 : (segs.length - 1 + k) % segs.length = k - 1 := by
        rw [Nat.mod_eq_sub_mod (by omega)]
        have h4 : segs.length - 1 + k - segs.length = k - 1 := by omega
        rw [h4]
        exact Nat.mod_eq_of_lt (by omega)
      rw [h3]
      have h5 : k - 1 + 1 = k := by omega
      rw [h5]
      exact Nat.mod_eq_of_lt hk
  have hadj := closedLoop_adjacent segs hcl ((segs.length - 1 + k) % segs.length) hi
  rw [hnext] at hadj
  exact hadj

end Engine

namespace Engine

theorem momentFold_append (py pz Dd Zc Yc Tz : ℚ) :
    ∀ (l₁ l₂ : List Segment) (az ay bz bw : ℚ),
      bz = az + (l₁.map segFz).sum → bw = ay + (l₁.map segFy).sum →
      momentFold py pz Dd Zc Yc Tz (l₁ ++ l₂) az ay =
        momentFold py pz Dd Zc Yc Tz l₁ az ay +
          momentFold py pz Dd Zc Yc Tz l₂ bz bw
  | [], l₂, az, ay, bz, bw, h1, h2 => by
    simp only [List.map_nil, List.sum_nil, add_zero] at h1 h2
    subst h1; subst h2
    simp [momentFold]
  | s :: l₁, l₂, az, ay, bz, bw, h1, h2 => by
    simp only [List.cons_append, momentFold, List.append_eq]
    rw [momentFold_append py pz Dd Zc Yc Tz l₁ l₂ (az + segFz s) (ay + segFy s) bz bw
      (by simp only [List.map_cons, List.sum_cons] at h1 ⊢; linarith)
      (by simp only [List.map_cons, List.sum_cons] at h2 ⊢; linarith)]
    ring

theorem momentFold_shift (py pz Dd Zc Yc Tz : ℚ) :
    ∀ (l : List Segment) (az ay : ℚ), (∀ s ∈ l, s.length ≠ 0) →
      momentFold py pz Dd Zc Yc Tz l az ay =
        momentFold py pz Dd Zc Yc Tz l 0 0 +
          (Tz / Dd) * (Zc * az - Yc * ay) * (l.map (crossO py pz)).sum
  | [], az, ay, _ => by simp [momentFold]
  | s :: l, az, ay, hl => by
    have hs : s.length ≠ 0 := hl s (List.mem_cons_self s l)
    have hrec1 := momentFold_shift py pz Dd Zc Yc Tz l (az + segFz s) (ay + segFy s)
      (fun t ht => hl t (List.mem_cons_of_mem s ht))
    have hrec2 := momentFold_shift py pz Dd Zc Yc Tz l (0 + segFz s) (0 + segFy s)
      (fun t ht => hl t (List.mem_cons_of_mem s ht))
    rw [momentFold, momentFold, hrec1, hrec2]
    simp only [List.map_cons, List.sum_cons]
    unfold perpDist
    linear_combination
      (Tz / Dd * (Zc * az - Yc * ay) * crossO py pz s) * mul_inv_cancel₀ hs

theorem momentLoop_rotate (oy oz Tz : ℚ) (segs : List Segment) (k : ℕ)
    (hv : validSegs segs = true) (hcl : ClosedLoop segs) (hk : k < segs.length) :
    momentLoop oy oz (segs.rotate k) Tz =
      momentLoop oy oz segs Tz -
        2 * enclosedArea segs *
          ((Tz / Ddet segs) *
            (EI_zz segs * accFz (centered segs) k -
              EI_yz segs * accFy (centered segs) k)) := by
  have hne : segs ≠ [] := by intro h; subst h; simp at hk
  have hW : totalWeight segs ≠ 0 := ne_of_gt (totalWeight_pos segs hv hne)
  have h0z := sum_segFz_centered segs hW
  have h0y := sum_segFy_centered segs hW
  have hkc : k < (centered segs).length := by rw [centered_length]; exact hk
  have hlc : ∀ s ∈ centered segs, s.length ≠ 0 := by
    intro s hs
    obtain ⟨t, ht, rfl⟩ := List.mem_map.mp hs
    exact ne_of_gt (validSegs_mem hv ht).1
  have hltake : ∀ s ∈ (centered segs).take k, s.length ≠ 0 :=
    fun s hs => hlc s (List.mem_of_mem_take hs)
  have hldrop : ∀ s ∈ (centered segs).drop k, s.length ≠ 0 :=
    fun s hs => hlc s (List.mem_of_mem_drop hs)
  have hdz : (((centered segs).drop k).map segFz).sum = -(accFz (centered segs) k) := by
    rw [List.map_drop, drop_sum_eq, h0z]
    unfold accFz
    rw [List.map_take]
    ring
  have hdy : (((centered segs).drop k).map segFy).sum = -(accFy (centered segs) k) := by
    rw [List.map_drop, drop_sum_eq, h0y]
    unfold accFy
    rw [List.map_take]
    ring
  have hX : ((centered segs).map
      (crossO (oy - centroidY segs) (oz - centroidZ segs))).sum =
      2 * enclosedArea segs := by
    have hmm : ((centered segs).map
        (crossO (oy - centroidY segs) (oz - centroidZ segs))).sum =
        (segs.map (crossO oy oz)).sum := by
      unfold centered
      rw [List.map_map]
      refine congrArg List.sum (List.map_congr_left fun s _ => ?_)
      simp only [Function.comp_apply]
      exact crossO_center oy oz _ _ s
    rw [hmm, sum_crossO oy oz segs hcl]
  have hXsplit : (((centered segs).take k).map
        (crossO (oy - centroidY segs) (oz - centroidZ segs))).sum +
      (((centered segs).drop k).map
        (crossO (oy - centroidY segs) (oz - centroidZ segs))).sum =
      2 * enclosedArea segs := by
    rw [← hX]
    conv_rhs => rw [← List.take_append_drop k (centered segs)]
    rw [List.map_append, List.sum_append]
  -- decompose the rotated loop moment
  have hrot : momentLoop oy oz (segs.rotate k) Tz =
      momentFold (oy - centroidY segs) (oz - centroidZ segs) (Ddet segs)
          (EI_zz segs) (EI_yz segs) Tz ((centered segs).drop k) 0 0 +
        momentFold (oy - centroidY segs) (oz - centroidZ segs) (Ddet segs)
          (EI_zz segs) (EI_yz segs) Tz ((centered segs).take k)
          (-(accFz (centered segs) k)) (-(accFy (centered segs) k)) := by
    unfold momentLoop
    rw [centroidY_rotate, centroidZ_rotate, Ddet_rotate, EI_zz_rotate, EI_yz_rotate,
      centered_rotate, List.rotate_eq_drop_append_take hkc.le,
      momentFold_append _ _ _ _ _ _ ((centered segs).drop k) ((centered segs).take k)
        0 0 (-(accFz (centered segs) k)) (-(accFy (centered segs) k))
        (by rw [hdz]; ring) (by rw [hdy]; ring)]
  have horig : momentLoop oy oz segs Tz =
      momentFold (oy - centroidY segs) (oz - centroidZ segs) (Ddet segs)
          (EI_zz segs) (EI_yz segs) Tz ((centered segs).take k) 0 0 +
        momentFold (oy - centroidY segs) (oz - centroidZ segs) (Ddet segs)
          (EI_zz segs) (EI_yz segs) Tz ((centered segs).drop k)
          (accFz (centered segs) k) (accFy (centered segs) k) := by
    unfold momentLoop
    conv_lhs => rw [← List.take_append_drop k (centered segs)]
    rw [momentFold_append _ _ _ _ _ _ ((centered segs).take k) ((centered segs).drop k)
      0 0 (accFz (centered segs) k) (accFy (centered segs) k)
      (by unfold accFz; rw [List.map_take]; ring)
      (by unfold accFy; rw [List.map_take]; ring)]
  rw [hrot, horig,
    momentFold_shift _ _ _ _ _ _ ((centered segs).take k)
      (-(accFz (centered segs) k)) (-(accFy (centered segs) k)) hltake,
    momentFold_shift _ _ _ _ _ _ ((centered segs).drop k)
      (accFz (centered segs) k) (accFy (centered segs) k) hldrop,
    ← hXsplit]
  ring

end Engine

namespace Engine

/-- C7: for every CLOSED_SINGLE_CELL section and every applied shear load,
the final shear-flow field returned by `compute_shear_flow` is identical for
every choice of segment taken as the integration start / cut point: rotating
the segment list by `k` and sampling position `m` reproduces the original
field at the corresponding position `(m + k) % n` exactly. -/
theorem cut_point_invariance (oy oz Tz : ℚ) (segs : List Segment) (k m : ℕ)
    (u : ℚ) (hv : validSegs segs = true) (hcl : ClosedLoop segs)
    (hA : enclosedArea segs ≠ 0) (hk : k < segs.length) (hm : m < segs.length) :
    compute_shear_flow oy oz (segs.rotate k) Tz m u =
      compute_shear_flow oy oz segs Tz ((m + k) % segs.length) u := by
  have hne : segs ≠ [] := by intro h; subst h; simp at hk
  have hW : totalWeight segs ≠ 0 := ne_of_gt (totalWeight_pos segs hv hne)
  have h0z := sum_segFz_centered segs hW
  have h0y := sum_segFy_centered segs hW
  have hkc : k < (centered segs).length := by rw [centered_length]; exact hk
  have hmc : m < (centered segs).length := by rw [centered_length]; exact hm
  have hcrot := isClosed_rotate segs k hcl hk
  have hqopen : q_open (segs.rotate k) Tz m u =
      q_open segs Tz ((m + k) % segs.length) u -
        (Tz / Ddet segs) *
          (EI_zz segs * accFz (centered segs) k -
            EI_yz segs * accFy (centered segs) k) := by
    unfold q_open
    rw [Ddet_rotate, EI_zz_rotate, EI_yz_rotate, centered_rotate]
    unfold accFz accFy
    rw [accF_rotate segFz (centered segs) k m hkc hmc.le h0z,
      accF_rotate segFy (centered segs) k m hkc hmc.le h0y,
      getD_rotate (centered segs) k m hmc, centered_length]
    ring
  have hq0 : q0 oy oz (segs.rotate k) Tz =
      q0 oy oz segs Tz +
        (Tz / Ddet segs) *
          (EI_zz segs * accFz (centered segs) k -
            EI_yz segs * accFy (centered segs) k) := by
    unfold q0
    rw [enclosedArea_rotate, momentLoop_rotate oy oz Tz segs k hv hcl hk]
    field_simp
    ring
  rw [compute_shear_flow, compute_shear_flow, if_pos hcrot, if_pos hcl.2]
  unfold finalFlow
  rw [hqopen, hq0]
  ring

/-- Witness for C7: on the Case-4 box with a 2 kN shear load, cutting at
segment 1 instead of segment 0 yields the same flow at a sample point. -/
theorem cut_point_invariance_witness :
    (validSegs boxSegs = true ∧ ClosedLoop boxSegs ∧
      enclosedArea boxSegs ≠ 0 ∧ 1 < boxSegs.length ∧ 0 < boxSegs.length) ∧
    compute_shear_flow 0 0 (boxSegs.rotate 1) 2000 0 (1/100) =
      compute_shear_flow 0 0 boxSegs 2000 ((0 + 1) % boxSegs.length) (1/100) := by
  have hv : validSegs boxSegs = true := by simp [validSegs, boxSegs]; norm_num
  have hch : Chained boxSegs := by
    simp [Chained, boxSegs, List.chain'_cons]
  have hic : isClosed boxSegs = true := by simp [isClosed, boxSegs]
  have hA : enclosedArea boxSegs ≠ 0 := by
    simp [enclosedArea, boxSegs, segCross]
  exact ⟨⟨hv, ⟨hch, hic⟩, hA, by simp [boxSegs], by simp [boxSegs]⟩,
    cut_point_invariance 0 0 2000 boxSegs 1 0 (1/100) hv ⟨hch, hic⟩ hA
      (by simp [boxSegs]) (by simp [boxSegs])⟩

end Engine
